import Mathlib

/-!
Verification of the decimal64 library: a fixed-point decimal type backed by a
64-bit unsigned integer, parameterized by a compile-time scale (number of
fractional digits, 0 to 8).

The Rust source is shallowly embedded:
  - u64 / u128 values are Nat with explicit reduction modulo 2^64 / 2^128
    wherever the Rust code performs unchecked (wrapping, release-mode)
    arithmetic;
  - fallible operations return Except / Option; a Rust panic (division by
    zero, out-of-bounds buffer index) is modelled as Option.none;
  - DecimalU64<S> is a structure holding the unscaled value, with the scale
    passed explicitly to each operation (SCALE_FACTOR = 10^scale).
-/

set_option maxHeartbeats 1000000
set_option maxRecDepth 8192

/-- Modulus of 64-bit unsigned integers, 2^64. -/
def U64MOD : Nat := 18446744073709551616

/-- Modulus of 128-bit unsigned integers, 2^128. -/
def U128MOD : Nat := 340282366920938463463374607431768211456

/-- Embeds the Rust struct DecimalU64<S> (src/lib.rs): a transparent wrapper
around an unscaled u64 value.  The scale marker S is zero-sized in Rust; here
the scale is passed explicitly to each operation. -/
structure DecimalU64 where
  unscaled : Nat
deriving DecidableEq

/-- Embeds the error enum of src/error.rs.  Overflow carries the original
input text (as its byte sequence); InvalidCharacterInput carries the
offending byte. -/
inductive DecError where
  | InvalidCharacterInput (c : Nat)
  | Overflow (input : List Nat)
deriving DecidableEq

/-- Embeds the SCALE_FACTORS lookup table of src/lib.rs line 28. -/
def SCALE_FACTORS : List Nat :=
  [1, 10, 100, 1000, 10000, 100000, 1000000, 10000000, 100000000]

/-- Embeds ScaleMetrics::SCALE_FACTOR = 10u64.pow(SCALE) (src/macros.rs).
For every supported scale (0 to 8) the value fits in a u64. -/
def SCALE_FACTOR (scale : Nat) : Nat := 10 ^ scale

/-- Embeds one iteration of the parsing loop of TryFrom::try_from
(src/lib.rs lines 54-66) on state (unscaled, fractional_part_flag,
scale_counter).  The multiplication unscaled * 10 is an unchecked u64
multiplication (it wraps modulo 2^64 in release builds, hence the explicit
percent U64MOD); only the subsequent addition of the digit uses checked_add.
scale_counter (and the flag added to it) is a u8 in the source — its type is
forced by S::SCALE.checked_sub(scale_counter) with SCALE: u8 — so the
unchecked increment scale_counter += fractional_part_flag wraps modulo 256
in release builds, hence the percent 256.  The whole input byte sequence is
carried along because the Overflow error stores the original text. -/
def parseStep (bytes : List Nat) (st : Nat × Nat × Nat) (byte : Nat) :
    Except DecError (Nat × Nat × Nat) :=
  if 48 ≤ byte ∧ byte ≤ 57 then
    let mul := st.1 * 10 % U64MOD
    if mul + (byte - 48) < U64MOD then
      Except.ok (mul + (byte - 48), st.2.1, (st.2.2 + st.2.1) % 256)
    else
      Except.error (DecError.Overflow bytes)
  else if byte = 46 then
    Except.ok (st.1, 1, st.2.2)
  else
    Except.error (DecError.InvalidCharacterInput byte)

/-- Runs the parsing loop of try_from over the remaining bytes. -/
def parseRun (bytes : List Nat) : Nat × Nat × Nat → List Nat →
    Except DecError (Nat × Nat × Nat)
  | st, [] => Except.ok st
  | st, b :: rest =>
    match parseStep bytes st b with
    | Except.ok st' => parseRun bytes st' rest
    | Except.error e => Except.error e

/-- Embeds TryFrom::try_from for DecimalU64 (src/lib.rs lines 49-83): run the
digit-accumulation loop, then rescale by SCALE_FACTORS[SCALE - scale_counter]
using checked_sub (underflow yields Overflow) and checked_mul (overflow
yields Overflow).  The Rust code indexes the table with get_unchecked; the
index is in range whenever scale is at most 8, and the unreachable
out-of-range case is modelled as an Overflow error. -/
def tryFrom (scale : Nat) (bytes : List Nat) : Except DecError DecimalU64 :=
  match parseRun bytes (0, 0, 0) bytes with
  | Except.error e => Except.error e
  | Except.ok (unscaled, _, scale_counter) =>
    if scale_counter ≤ scale then
      match SCALE_FACTORS.get? (scale - scale_counter) with
      | some factor =>
        if unscaled * factor < U64MOD then Except.ok ⟨unscaled * factor⟩
        else Except.error (DecError.Overflow bytes)
      | none => Except.error (DecError.Overflow bytes)
    else Except.error (DecError.Overflow bytes)

/-- Embeds DecimalU64::checked_div (src/arithmetic.rs lines 100-112):
None on a zero divisor, 128-bit checked multiplication of the dividend by
the scale factor, truncating division, None when the quotient exceeds
u64::MAX. -/
def checked_div (scale : Nat) (a b : DecimalU64) : Option DecimalU64 :=
  if b.unscaled = 0 then
    none
  else
    if a.unscaled * SCALE_FACTOR scale < U128MOD then
      let quotient := a.unscaled * SCALE_FACTOR scale / b.unscaled
      if quotient > U64MOD - 1 then none else some ⟨quotient⟩
    else
      none

/-- Embeds the unchecked division operator Div::div (src/arithmetic.rs lines
35-47).  The panic on a zero divisor is modelled as Option.none; otherwise
the u128 product (wrapping modulo 2^128) is divided and the quotient is
truncated to u64 by the cast, hence the reduction modulo 2^64. -/
def divUnchecked (scale : Nat) (a b : DecimalU64) : Option DecimalU64 :=
  if b.unscaled = 0 then
    none
  else
    some ⟨a.unscaled * SCALE_FACTOR scale % U128MOD / b.unscaled % U64MOD⟩

/-- Embeds HalfUp::round (src/round.rs lines 10-16).  The addition
value + half_tick is an unchecked u64 addition (wraps modulo 2^64); the
division by a zero tick size panics in Rust, modelled as Option.none.  The
final multiplication cannot exceed u64 because the quotient times the tick
is at most the (already reduced) sum. -/
def halfUpRound (value tick : DecimalU64) : Option DecimalU64 :=
  let half_tick := tick.unscaled / 2 + tick.unscaled % 2
  if tick.unscaled = 0 then
    none
  else
    some ⟨(value.unscaled + half_tick) % U64MOD / tick.unscaled * tick.unscaled⟩

/-- Embeds Floor::round (src/round.rs lines 21-26); the division by a zero
tick size panics in Rust, modelled as Option.none. -/
def floorRound (value tick : DecimalU64) : Option DecimalU64 :=
  if tick.unscaled = 0 then
    none
  else
    some ⟨value.unscaled / tick.unscaled * tick.unscaled⟩

/-- Embeds Ceil::round (src/round.rs lines 31-36); unchecked additions wrap
modulo 2^64 (and the subtraction by one underflows only for a zero tick,
which panics at the division anyway, modelled as Option.none). -/
def ceilRound (value tick : DecimalU64) : Option DecimalU64 :=
  if tick.unscaled = 0 then
    none
  else
    some ⟨(value.unscaled + tick.unscaled - 1) % U64MOD / tick.unscaled *
      tick.unscaled⟩

/-- Embeds DecimalU64::split (src/lib.rs lines 132-136). -/
def split (scale : Nat) (d : DecimalU64) : Nat × Nat :=
  (d.unscaled / SCALE_FACTOR scale, d.unscaled % SCALE_FACTOR scale)

example : tryFrom 8 [49, 50, 51, 46, 52, 53] = Except.ok ⟨12345000000⟩ := by
  rfl

example :
    tryFrom 0 [49, 56, 52, 52, 54, 55, 52, 52, 48, 55, 51, 55, 48, 57, 53,
      53, 49, 54, 50, 53] = Except.ok ⟨9⟩ := by
  rfl

example : tryFrom 2 [49, 50, 51, 46, 52, 53, 54] =
    Except.error (DecError.Overflow [49, 50, 51, 46, 52, 53, 54]) := by
  rfl

lemma SCALE_FACTORS_get (scale : Nat) (h : scale ≤ 8) :
    SCALE_FACTORS.get? scale = some (10 ^ scale) := by
  interval_cases scale <;> rfl

lemma parseRun_dots (input : List Nat) :
    ∀ (n : Nat) (u f sc : Nat),
      parseRun input (u, f, sc) (List.replicate n 46) =
        Except.ok (u, if n = 0 then f else 1, sc) := by
  intro n
  induction n with
  | zero => intro u f sc; simp [parseRun]
  | succ m ih =>
    intro u f sc
    have hstep : parseStep input (u, f, sc) 46 = Except.ok (u, 1, sc) := by
      simp [parseStep]
    simp only [List.replicate_succ, parseRun, hstep, ih]
    simp

/-- Claim C1: the spec states that both the multiplication by 10 and the
addition of the digit in the digit-accumulation step of parsing are checked,
with overflow reported as an Overflow error carrying the input text.  In the
code only the addition uses checked_add; the multiplication unscaled * 10 is
unchecked and wraps modulo 2^64 in release builds.  Evaluating the embedded
parser at the input "18446744073709551625" (a 20-digit number exceeding
u64::MAX, whose accumulation wraps at the final multiplication by 10) at
scale 0 yields Ok with unscaled value 9 instead of an Overflow error. -/
theorem claim_C1_parse_mul_unchecked :
    tryFrom 0 [49, 56, 52, 52, 54, 55, 52, 52, 48, 55, 51, 55, 48, 57, 53,
        53, 49, 54, 50, 53] = Except.ok ⟨9⟩ ∧
      ∀ e, tryFrom 0 [49, 56, 52, 52, 54, 55, 52, 52, 48, 55, 51, 55, 48, 57,
        53, 53, 49, 54, 50, 53] ≠ Except.error e := by
  refine ⟨rfl, ?_⟩
  intro e h
  rw [show tryFrom 0 [49, 56, 52, 52, 54, 55, 52, 52, 48, 55, 51, 55, 48, 57,
      53, 53, 49, 54, 50, 53] = Except.ok ⟨9⟩ from rfl] at h
  exact Except.noConfusion h

/-- Claim C5: for same-scale values with a nonzero divisor (and any supported
scale), checked_div computes the 128-bit product a.unscaled * SCALE_FACTOR
(which never overflows u128 for scales 0 to 8), divides by b.unscaled, and
returns Some of the truncated quotient exactly when it is at most u64::MAX,
None exactly when it exceeds the 64-bit range. -/
theorem claim_C5_checked_div (scale : Nat) (a b : Nat)
    (hs : scale ≤ 8) (ha : a < U64MOD) (hb : b ≠ 0) :
    checked_div scale ⟨a⟩ ⟨b⟩ =
      if a * SCALE_FACTOR scale / b < U64MOD then
        some ⟨a * SCALE_FACTOR scale / b⟩
      else none := by
  have hprod : a * SCALE_FACTOR scale < U128MOD := by
    calc a * SCALE_FACTOR scale ≤ (U64MOD - 1) * 10 ^ 8 := by
          apply Nat.mul_le_mul
          · omega
          · exact Nat.pow_le_pow_right (by norm_num) hs
      _ < U128MOD := by norm_num [U64MOD, U128MOD]
  have hU : 0 < U64MOD := by norm_num [U64MOD]
  show (if b = 0 then (none : Option DecimalU64)
    else if a * SCALE_FACTOR scale < U128MOD then
      if a * SCALE_FACTOR scale / b > U64MOD - 1 then none
      else some ⟨a * SCALE_FACTOR scale / b⟩
    else none) = _
  rw [if_neg hb, if_pos hprod]
  by_cases hq : a * SCALE_FACTOR scale / b < U64MOD
  · rw [if_neg (by omega : ¬ a * SCALE_FACTOR scale / b > U64MOD - 1),
      if_pos hq]
  · rw [if_pos (by omega : a * SCALE_FACTOR scale / b > U64MOD - 1),
      if_neg hq]

theorem claim_C5_checked_div_witness :
    (8 : Nat) ≤ 8 ∧ (300000000 : Nat) < U64MOD ∧ (200000000 : Nat) ≠ 0 ∧
      checked_div 8 ⟨300000000⟩ ⟨200000000⟩ =
        if 300000000 * SCALE_FACTOR 8 / 200000000 < U64MOD then
          some ⟨300000000 * SCALE_FACTOR 8 / 200000000⟩
        else none :=
  ⟨le_refl 8, by norm_num [U64MOD], by norm_num,
    claim_C5_checked_div 8 300000000 200000000 (le_refl 8)
      (by norm_num [U64MOD]) (by norm_num)⟩

/-- Claim C6 (counterexample): the claim as stated — every input whose
number of fractional digits exceeds the target scale (with the digit
accumulation succeeding) fails with an Overflow error — is false of the
code: scale_counter is a u8 that wraps modulo 256 in release builds, so a
dot followed by 256 zero digits (256 fractional digits, far more than
scale 2) wraps the counter back to 0 and parsing succeeds with the zero
value instead of returning any error. -/
theorem claim_C6_scale_counter_wrap_counterexample :
    2 < (List.replicate 256 48).length ∧
      tryFrom 2 (46 :: List.replicate 256 48) = Except.ok ⟨0⟩ ∧
      ∀ e, tryFrom 2 (46 :: List.replicate 256 48) ≠ Except.error e := by
  refine ⟨by simp, rfl, ?_⟩
  intro e h
  rw [show tryFrom 2 (46 :: List.replicate 256 48) = Except.ok ⟨0⟩ from
    rfl] at h
  exact Except.noConfusion h

/-- Claim C6 (amended): whenever the digit-accumulation loop succeeds and
the u8 fractional-digit counter — the count of digits after the first dot,
which wraps modulo 256 in release builds — exceeds the target scale,
try_from fails with an Overflow error carrying the original input bytes
(the checked subtraction SCALE - scale_counter underflows).  For inputs
with fewer than 256 fractional digits the counter equals the true count,
so in particular parse("123.456") at scale 2 fails with Overflow (see the
witness); with 256 or more fractional digits the counter wraps and the
original universally quantified claim fails (see the counterexample). -/
theorem claim_C6_scale_underflow (scale : Nat) (bytes : List Nat)
    (u f sc : Nat)
    (hrun : parseRun bytes (0, 0, 0) bytes = Except.ok (u, f, sc))
    (hgt : scale < sc) :
    tryFrom scale bytes = Except.error (DecError.Overflow bytes) := by
  unfold tryFrom
  rw [hrun]
  simp [Nat.not_le.mpr hgt]

theorem claim_C6_scale_underflow_witness :
    parseRun [49, 50, 51, 46, 52, 53, 54] (0, 0, 0)
        [49, 50, 51, 46, 52, 53, 54] = Except.ok (123456, 1, 3) ∧
      (2 : Nat) < 3 ∧
      tryFrom 2 [49, 50, 51, 46, 52, 53, 54] =
        Except.error (DecError.Overflow [49, 50, 51, 46, 52, 53, 54]) :=
  ⟨rfl, by norm_num,
    claim_C6_scale_underflow 2 [49, 50, 51, 46, 52, 53, 54] 123456 1 3 rfl
      (by norm_num)⟩

/-- Claim C7: for every value and every scale, checked_div by a zero-valued
divisor returns None (no panic), while the unchecked division operator on a
zero divisor panics (modelled as None: it never silently produces a numeric
result). -/
theorem claim_C7_div_by_zero (scale : Nat) (a : DecimalU64) :
    checked_div scale a ⟨0⟩ = none ∧ divUnchecked scale a ⟨0⟩ = none := by
  constructor
  · simp [checked_div]
  · simp [divUnchecked]

/-- Claim C8: the parser does not reject a second decimal point: a dot byte
merely sets the fractional-mode flag (idempotently), every digit after the
first dot counting as fractional; consequently for any scale between 2 and
8, parsing "1.2.3" succeeds and yields the same value as parsing "1.23". -/
theorem claim_C8_second_dot :
    (∀ (input : List Nat) (st : Nat × Nat × Nat),
        parseStep input st 46 = Except.ok (st.1, 1, st.2.2)) ∧
      ∀ scale : Nat, 2 ≤ scale → scale ≤ 8 →
        tryFrom scale [49, 46, 50, 46, 51] = tryFrom scale [49, 46, 50, 51] ∧
          tryFrom scale [49, 46, 50, 46, 51] =
            Except.ok ⟨123 * 10 ^ (scale - 2)⟩ := by
  constructor
  · intro input st
    simp [parseStep]
  · intro scale h2 h8
    interval_cases scale <;> exact ⟨rfl, rfl⟩

theorem claim_C8_second_dot_witness :
    tryFrom 2 [49, 46, 50, 46, 51] = tryFrom 2 [49, 46, 50, 51] ∧
      tryFrom 2 [49, 46, 50, 46, 51] = Except.ok ⟨123 * 10 ^ (2 - 2)⟩ :=
  claim_C8_second_dot.2 2 (by norm_num) (by norm_num)

/-- Claim C10: parsing the empty byte sequence succeeds with the zero value,
and likewise any input consisting only of dot characters parses to zero. -/
theorem claim_C10_empty_and_dots (scale : Nat) (h : scale ≤ 8) :
    tryFrom scale [] = Except.ok ⟨0⟩ ∧
      ∀ n : Nat, tryFrom scale (List.replicate n 46) = Except.ok ⟨0⟩ := by
  have hfinal : ∀ fl : Nat,
      (if 0 ≤ scale then
        match SCALE_FACTORS.get? (scale - 0) with
        | some factor =>
          if 0 * factor < U64MOD then Except.ok (⟨0 * factor⟩ : DecimalU64)
          else Except.error (DecError.Overflow (List.replicate fl 46))
        | none => Except.error (DecError.Overflow (List.replicate fl 46))
        else Except.error (DecError.Overflow (List.replicate fl 46))) =
        Except.ok (⟨0⟩ : DecimalU64) := by
    intro fl
    rw [if_pos (Nat.zero_le scale), Nat.sub_zero, SCALE_FACTORS_get scale h]
    norm_num [U64MOD]
  constructor
  · have h0 := hfinal 0
    simp only [List.replicate_zero] at h0
    unfold tryFrom
    simpa [parseRun] using h0
  · intro n
    unfold tryFrom
    rw [parseRun_dots (List.replicate n 46) n 0 0 0]
    have := hfinal n
    split at this <;> simp_all

theorem claim_C10_empty_and_dots_witness :
    tryFrom 8 [] = Except.ok ⟨0⟩ ∧
      tryFrom 8 (List.replicate 3 46) = Except.ok ⟨0⟩ :=
  ⟨(claim_C10_empty_and_dots 8 (le_refl 8)).1,
    (claim_C10_empty_and_dots 8 (le_refl 8)).2 3⟩

/-- Specification predicate, written from the spec wording of claim C2: m is
the multiple of the tick size t nearest to v, where a value exactly halfway
between two multiples rounds away from zero — equivalently, m is the largest
among the multiples of t at minimal distance from v. -/
def isNearestTieUp (t v m : Nat) : Prop :=
  t ∣ m ∧ (∀ m', t ∣ m' → Nat.dist v m ≤ Nat.dist v m') ∧
    (∀ m', t ∣ m' → Nat.dist v m' = Nat.dist v m → m' ≤ m)

lemma dist_mult_lower (t q r k : Nat) (hk : k ≤ q) :
    Nat.dist (t * q + r) (t * k) = t * (q - k) + r := by
  have h1 : t * q = t * k + t * (q - k) := by
    rw [← Nat.mul_add]
    congr 1
    omega
  simp only [Nat.dist]
  omega

lemma dist_mult_upper (t q r k : Nat) (hr : r < t) (hk : q < k) :
    Nat.dist (t * q + r) (t * k) = t * (k - q) - r := by
  have h1 : t * k = t * q + t * (k - q) := by
    rw [← Nat.mul_add]
    congr 1
    omega
  have h2 : t * 1 ≤ t * (k - q) := Nat.mul_le_mul_left t (by omega)
  simp only [Nat.dist]
  omega

lemma isNearestTieUp_even (t q r : Nat) (ht : 0 < t) (hr : r < t)
    (hev : t % 2 = 0) :
    isNearestTieUp t (t * q + r) (t * (if r < t / 2 then q else q + 1)) := by
  have hfull : t = 2 * (t / 2) := by omega
  refine ⟨Dvd.intro _ rfl, ?_, ?_⟩
  · intro m' hm'
    obtain ⟨k, rfl⟩ := hm'
    by_cases hc : r < t / 2
    · rw [if_pos hc, dist_mult_lower t q r q (le_refl q)]
      simp only [Nat.sub_self, Nat.mul_zero, Nat.zero_add]
      by_cases hk : k ≤ q
      · rw [dist_mult_lower t q r k hk]
        omega
      · rw [dist_mult_upper t q r k hr (by omega)]
        have h2 : t * 1 ≤ t * (k - q) := Nat.mul_le_mul_left t (by omega)
        rw [Nat.mul_one] at h2
        omega
    · rw [if_neg hc, dist_mult_upper t q r (q + 1) hr (by omega)]
      simp only [Nat.add_sub_cancel_left, Nat.mul_one]
      by_cases hk : k ≤ q
      · rw [dist_mult_lower t q r k hk]
        omega
      · rw [dist_mult_upper t q r k hr (by omega)]
        have h2 : t * 1 ≤ t * (k - q) := Nat.mul_le_mul_left t (by omega)
        rw [Nat.mul_one] at h2
        omega
  · intro m' hm'
    obtain ⟨k, rfl⟩ := hm'
    by_cases hc : r < t / 2
    · rw [if_pos hc, dist_mult_lower t q r q (le_refl q)]
      simp only [Nat.sub_self, Nat.mul_zero, Nat.zero_add]
      by_cases hk : k ≤ q
      · intro _
        exact Nat.mul_le_mul_left t hk
      · rw [dist_mult_upper t q r k hr (by omega)]
        have h2 : t * 1 ≤ t * (k - q) := Nat.mul_le_mul_left t (by omega)
        rw [Nat.mul_one] at h2
        omega
    · rw [if_neg hc, dist_mult_upper t q r (q + 1) hr (by omega)]
      simp only [Nat.add_sub_cancel_left, Nat.mul_one]
      by_cases hk : k ≤ q + 1
      · intro _
        exact Nat.mul_le_mul_left t hk
      · rw [dist_mult_upper t q r k hr (by omega)]
        have h2 : t * 2 ≤ t * (k - q) := Nat.mul_le_mul_left t (by omega)
        have h3 : t * 2 = t + t := by omega
        omega

lemma halfUp_eq (v t : Nat) (ht : 0 < t)
    (hsum : v + (t / 2 + t % 2) < U64MOD) :
    halfUpRound ⟨v⟩ ⟨t⟩ = some ⟨(v + (t / 2 + t % 2)) / t * t⟩ := by
  show (if t = 0 then none
    else some (⟨(v + (t / 2 + t % 2)) % U64MOD / t * t⟩ : DecimalU64)) = _
  rw [if_neg (by omega), Nat.mod_eq_of_lt hsum]

/-- Claim C2 (counterexample): the claim that half-up rounding always
returns the multiple of the tick nearest to the value (ties away from zero)
fails for an odd tick size: rounding the value 0 at tick 1 (which satisfies
every hypothesis of the claim) yields 1, although 0 itself is a multiple of
the tick at distance 0. -/
theorem claim_C2_half_up_counterexample :
    0 < (1 : Nat) ∧ (0 : Nat) + (1 / 2 + 1 % 2) < U64MOD ∧
      halfUpRound ⟨0⟩ ⟨1⟩ = some ⟨1⟩ ∧ ¬ isNearestTieUp 1 0 1 := by
  refine ⟨Nat.one_pos, by norm_num [U64MOD], rfl, ?_⟩
  intro hN
  have h1 := hN.2.1 0 ⟨0, rfl⟩
  simp [Nat.dist] at h1

/-- Claim C2 (amended): for every value v and tick size t of the same scale
with t.unscaled positive and even and the intermediate sum
v.unscaled + (t.unscaled/2 + t.unscaled%2) within the u64 range, half-up
rounding returns the multiple of t nearest to v, a value exactly halfway
between two multiples rounding away from zero; for odd tick sizes the code
also rounds the remainder (t-1)/2 — strictly below the true half — upward,
so the nearest-multiple property must be restricted to even ticks.  In
particular half-up of 0.125 at tick 0.01 yields 0.13 (see the witness). -/
theorem claim_C2_half_up_even_nearest (v t : Nat) (ht : 0 < t)
    (hev : t % 2 = 0) (hsum : v + (t / 2 + t % 2) < U64MOD) :
    halfUpRound ⟨v⟩ ⟨t⟩ = some ⟨(v + (t / 2 + t % 2)) / t * t⟩ ∧
      isNearestTieUp t v ((v + (t / 2 + t % 2)) / t * t) := by
  refine ⟨halfUp_eq v t ht hsum, ?_⟩
  have hq := Nat.div_add_mod v t
  have hr : v % t < t := Nat.mod_lt v ht
  have hdiv : (v + (t / 2 + t % 2)) / t =
      if v % t < t / 2 then v / t else v / t + 1 := by
    by_cases hc : v % t < t / 2
    · rw [if_pos hc,
        show v + (t / 2 + t % 2) = v % t + t / 2 + t * (v / t) by omega,
        Nat.add_mul_div_left _ _ ht, Nat.div_eq_of_lt (by omega)]
      omega
    · have he : t * (v / t + 1) = t * (v / t) + t := by
        rw [Nat.mul_add, Nat.mul_one]
      rw [if_neg hc,
        show v + (t / 2 + t % 2) = v % t + t / 2 - t + t * (v / t + 1) by
          omega,
        Nat.add_mul_div_left _ _ ht, Nat.div_eq_of_lt (by omega)]
      omega
  rw [hdiv]
  have hmain := isNearestTieUp_even t (v / t) (v % t) ht hr hev
  rw [show t * (v / t) + v % t = v from hq] at hmain
  by_cases hc : v % t < t / 2
  · rw [if_pos hc]
    rw [if_pos hc] at hmain
    rwa [Nat.mul_comm] at hmain
  · rw [if_neg hc]
    rw [if_neg hc] at hmain
    rwa [Nat.mul_comm] at hmain

theorem claim_C2_half_up_even_nearest_witness :
    halfUpRound ⟨12500000⟩ ⟨1000000⟩ = some ⟨13000000⟩ ∧
      isNearestTieUp 1000000 12500000 13000000 := by
  have h := claim_C2_half_up_even_nearest 12500000 1000000 (by norm_num)
    (by norm_num) (by norm_num [U64MOD])
  rwa [show (12500000 + (1000000 / 2 + 1000000 % 2)) / 1000000 * 1000000 =
    13000000 by norm_num] at h

/-- Writes one byte into the buffer; Option.none models the Rust panic on an
out-of-bounds index (buffer[i] = x panics when i is past the end). -/
def setByte (buf : List Nat) (i : Nat) (x : Nat) : Option (List Nat) :=
  if i < buf.length then some (buf.set i x) else none

/-- Embeds the digit-counting loop of write_to (src/lib.rs lines 149-154):
while tmp is nonzero, increment the count and divide tmp by 10. -/
def countDigits (n : Nat) : Nat :=
  if h : n = 0 then 0 else countDigits (n / 10) + 1
termination_by n
decreasing_by exact Nat.div_lt_self (Nat.pos_of_ne_zero h) (by decide)

/-- Embeds the backwards digit-writing loop of write_to (src/lib.rs lines
156-162): while tmp is nonzero, decrement idx, store the ASCII digit of
tmp % 10 at idx, divide tmp by 10.  (tmp % 10 is below 10, so the u8 cast
never truncates; the usize decrement never underflows because the loop runs
exactly digit_count times and idx starts at the digit count.) -/
def writeIntDigits (n idx : Nat) (buf : List Nat) : Option (List Nat) :=
  if h : n = 0 then some buf
  else
    match setByte buf (idx - 1) (48 + n % 10) with
    | some buf' => writeIntDigits (n / 10) (idx - 1) buf'
    | none => none
termination_by n
decreasing_by exact Nat.div_lt_self (Nat.pos_of_ne_zero h) (by decide)

/-- Embeds the fractional-digit loop of write_to (src/lib.rs lines 169-178):
iterate SCALE times, writing the ASCII digit of frac / divisor (the u8 cast
truncates modulo 256), then reduce frac modulo the divisor and divide the
divisor by 10.  Arguments: remaining iterations, divisor, frac, pos,
buffer. -/
def writeFracDigits : Nat → Nat → Nat → Nat → List Nat →
    Option (List Nat × Nat)
  | 0, _, _, pos, buf => some (buf, pos)
  | k + 1, divisor, frac, pos, buf =>
    match setByte buf pos ((48 + frac / divisor % 256) % 256) with
    | some buf' =>
      writeFracDigits k (divisor / 10) (frac % divisor) (pos + 1) buf'
    | none => none

/-- Embeds DecimalU64::write_to (src/lib.rs lines 139-182): split the value,
write the integer part (a single ASCII zero when it is zero, otherwise its
digits via the counting and backwards-writing loops), then, when SCALE is
positive, the dot and exactly SCALE fractional digits.  Option.none models
the Rust panic on an out-of-bounds buffer index; the returned number is the
count of bytes written. -/
def writeTo (scale : Nat) (d : DecimalU64) (buf : List Nat) :
    Option (List Nat × Nat) :=
  let int_part := d.unscaled / SCALE_FACTOR scale
  let frac_part := d.unscaled % SCALE_FACTOR scale
  let step1 : Option (List Nat × Nat) :=
    if int_part = 0 then
      match setByte buf 0 48 with
      | some buf' => some (buf', 1)
      | none => none
    else
      match writeIntDigits int_part (countDigits int_part) buf with
      | some buf' => some (buf', countDigits int_part)
      | none => none
  match step1 with
  | none => none
  | some (buf1, pos1) =>
    if 0 < scale then
      match setByte buf1 pos1 46 with
      | some buf2 =>
        writeFracDigits scale (10 ^ (scale - 1)) frac_part (pos1 + 1) buf2
      | none => none
    else
      some (buf1, pos1)

/-- Embeds Display::fmt (src/lib.rs lines 86-95): write_to into a 64-byte
stack buffer and return the prefix of the written length. -/
def display (scale : Nat) (d : DecimalU64) : Option (List Nat) :=
  match writeTo scale d (List.replicate 64 0) with
  | some (buf, len) => some (buf.take len)
  | none => none

/-- Big-endian ASCII decimal digits of n, with a single digit for n < 10. -/
def natDigits (n : Nat) : List Nat :=
  if _ : n < 10 then [48 + n]
  else natDigits (n / 10) ++ [48 + n % 10]
termination_by n
decreasing_by exact Nat.div_lt_self (by omega) (by decide)

/-- Big-endian ASCII digits of m rendered in exactly k positions,
left-padded with zeros. -/
def padDigits : Nat → Nat → List Nat
  | 0, _ => []
  | k + 1, m => (48 + m / 10 ^ k) :: padDigits k (m % 10 ^ k)

/-- Numeric value of a big-endian ASCII digit string, continuing from an
accumulator. -/
def digitsValFrom (acc : Nat) : List Nat → Nat
  | [] => acc
  | b :: rest => digitsValFrom (acc * 10 + (b - 48)) rest

/-- Numeric value of a big-endian ASCII digit string. -/
def digitsVal (l : List Nat) : Nat := digitsValFrom 0 l

/-- Byte-level description of the output of write_to: the decimal digits of
the integer part then, when the scale is positive, a dot and exactly scale
zero-padded fractional digits. -/
def fmtBytes (scale : Nat) (d : DecimalU64) : List Nat :=
  natDigits (d.unscaled / SCALE_FACTOR scale) ++
    (if 0 < scale then
      46 :: padDigits scale (d.unscaled % SCALE_FACTOR scale)
    else [])

example : writeTo 8 ⟨12345000001⟩ (List.replicate 32 0) =
    some ([49, 50, 51, 46, 52, 53, 48, 48, 48, 48, 48, 49] ++
      List.replicate 20 0, 12) := by
  simp [writeTo, writeIntDigits, countDigits, setByte, SCALE_FACTOR,
    List.replicate, writeFracDigits]

example : display 0 ⟨0⟩ = some [48] := by decide

example : fmtBytes 8 ⟨12345000001⟩ =
    [49, 50, 51, 46, 52, 53, 48, 48, 48, 48, 48, 49] := by
  simp [fmtBytes, natDigits, padDigits, SCALE_FACTOR]

lemma digitsValFrom_nil (acc : Nat) : digitsValFrom acc [] = acc := rfl

lemma digitsValFrom_cons (acc b : Nat) (rest : List Nat) :
    digitsValFrom acc (b :: rest) =
      digitsValFrom (acc * 10 + (b - 48)) rest := rfl

lemma digitsValFrom_append (l1 l2 : List Nat) :
    ∀ acc, digitsValFrom acc (l1 ++ l2) =
      digitsValFrom (digitsValFrom acc l1) l2 := by
  induction l1 with
  | nil => intro acc; rfl
  | cons b rest ih => intro acc; simp only [List.cons_append,
      digitsValFrom_cons, ih]

lemma le_digitsValFrom (l : List Nat) : ∀ acc, acc ≤ digitsValFrom acc l := by
  induction l with
  | nil => intro acc; exact le_refl acc
  | cons b rest ih =>
    intro acc
    calc acc ≤ acc * 10 + (b - 48) := by omega
      _ ≤ digitsValFrom (acc * 10 + (b - 48)) rest := ih _

lemma parseRun_digits (input : List Nat) :
    ∀ (l : List Nat) (acc f sc : Nat),
      (∀ b ∈ l, 48 ≤ b ∧ b ≤ 57) → digitsValFrom acc l < U64MOD →
      sc + f * l.length < 256 →
      parseRun input (acc, f, sc) l =
        Except.ok (digitsValFrom acc l, f, sc + f * l.length) := by
  intro l
  induction l with
  | nil => intro acc f sc _ _ _; simp [parseRun, digitsValFrom_nil]
  | cons b rest ih =>
    intro acc f sc hmem hlt hsc
    have hb : 48 ≤ b ∧ b ≤ 57 := hmem b (List.mem_cons_self b rest)
    have hval : digitsValFrom acc (b :: rest) =
        digitsValFrom (acc * 10 + (b - 48)) rest := rfl
    have hexp : f * (b :: rest).length = f * rest.length + f := by
      simp only [List.length_cons]
      ring
    have hscf : sc + f < 256 := by omega
    have hstep_lt : acc * 10 + (b - 48) < U64MOD := by
      have := le_digitsValFrom rest (acc * 10 + (b - 48))
      omega
    have hmod : acc * 10 % U64MOD = acc * 10 := Nat.mod_eq_of_lt (by omega)
    have hstep : parseStep input (acc, f, sc) b =
        Except.ok (acc * 10 + (b - 48), f, sc + f) := by
      simp only [parseStep, if_pos hb, hmod, if_pos hstep_lt,
        Nat.mod_eq_of_lt hscf]
    simp only [parseRun, hstep]
    rw [ih (acc * 10 + (b - 48)) f (sc + f)
      (fun c hc => hmem c (List.mem_cons_of_mem b hc)) (by rw [← hval]; exact
        hlt) (by omega)]
    rw [hval]
    simp only [List.length_cons]
    have harith : sc + f + f * rest.length = sc + f * (rest.length + 1) := by
      ring
    rw [harith]

lemma parseRun_append (input : List Nat) (l1 l2 : List Nat) :
    ∀ st, parseRun input st (l1 ++ l2) =
      match parseRun input st l1 with
      | Except.ok st' => parseRun input st' l2
      | Except.error e => Except.error e := by
  induction l1 with
  | nil => intro st; simp [parseRun]
  | cons b rest ih =>
    intro st
    simp only [List.cons_append, parseRun]
    cases parseStep input st b with
    | ok st' => exact ih st'
    | error e => rfl

lemma digitsValFrom_natDigits (n : Nat) :
    ∀ acc, digitsValFrom acc (natDigits n) =
      acc * 10 ^ (natDigits n).length + n := by
  induction n using Nat.strong_induction_on with
  | _ n ih =>
    intro acc
    by_cases h : n < 10
    · rw [natDigits, dif_pos h, digitsValFrom_cons, digitsValFrom_nil,
        Nat.add_sub_cancel_left]
      simp [pow_one]
    · have hlt : n / 10 < n := Nat.div_lt_self (by omega) (by decide)
      rw [natDigits, dif_neg h, digitsValFrom_append, ih (n / 10) hlt acc]
      show digitsValFrom ((acc * 10 ^ (natDigits (n / 10)).length + n / 10) *
          10 + (48 + n % 10 - 48)) [] =
        acc * 10 ^ (natDigits (n / 10) ++ [48 + n % 10]).length + n
      rw [show (natDigits (n / 10) ++ [48 + n % 10]).length =
        (natDigits (n / 10)).length + 1 by simp]
      show (acc * 10 ^ (natDigits (n / 10)).length + n / 10) * 10 +
          (48 + n % 10 - 48) =
        acc * 10 ^ ((natDigits (n / 10)).length + 1) + n
      have hdm := Nat.div_add_mod n 10
      have hpow : acc * 10 ^ ((natDigits (n / 10)).length + 1) =
          acc * 10 ^ (natDigits (n / 10)).length * 10 := by
        rw [pow_succ, ← mul_assoc]
      rw [hpow]
      omega

lemma digitsVal_natDigits (n : Nat) : digitsVal (natDigits n) = n := by
  rw [digitsVal, digitsValFrom_natDigits n 0]
  simp

lemma natDigits_mem (n : Nat) : ∀ b ∈ natDigits n, 48 ≤ b ∧ b ≤ 57 := by
  induction n using Nat.strong_induction_on with
  | _ n ih =>
    by_cases h : n < 10
    · rw [natDigits, dif_pos h]
      intro b hb
      simp only [List.mem_singleton] at hb
      omega
    · rw [natDigits, dif_neg h]
      intro b hb
      rcases List.mem_append.mp hb with h1 | h2
      · exact ih (n / 10) (Nat.div_lt_self (by omega) (by decide)) b h1
      · simp only [List.mem_singleton] at h2
        have := Nat.mod_lt n (show 0 < 10 by decide)
        omega

lemma digitsValFrom_padDigits :
    ∀ (k m acc : Nat), m < 10 ^ k →
      digitsValFrom acc (padDigits k m) = acc * 10 ^ k + m := by
  intro k
  induction k with
  | zero =>
    intro m acc hm
    show digitsValFrom acc [] = acc * 10 ^ 0 + m
    rw [digitsValFrom_nil, pow_zero]
    omega
  | succ j ih =>
    intro m acc hm
    show digitsValFrom (acc * 10 + (48 + m / 10 ^ j - 48))
        (padDigits j (m % 10 ^ j)) = acc * 10 ^ (j + 1) + m
    rw [ih (m % 10 ^ j) _ (Nat.mod_lt m (Nat.pos_pow_of_pos j (by decide))),
      Nat.add_sub_cancel_left]
    have h1 : (acc * 10 + m / 10 ^ j) * 10 ^ j =
        acc * (10 ^ j * 10) + m / 10 ^ j * 10 ^ j := by ring
    have h2 : 10 ^ j * (m / 10 ^ j) + m % 10 ^ j = m := Nat.div_add_mod m _
    have h3 : m / 10 ^ j * 10 ^ j = 10 ^ j * (m / 10 ^ j) := mul_comm _ _
    have h4 : acc * 10 ^ (j + 1) = acc * (10 ^ j * 10) := by rw [pow_succ]
    omega

lemma padDigits_length (k : Nat) : ∀ m, (padDigits k m).length = k := by
  induction k with
  | zero => intro m; rfl
  | succ j ih => intro m; simp [padDigits, ih]

lemma padDigits_mem (k : Nat) :
    ∀ m, m < 10 ^ k → ∀ b ∈ padDigits k m, 48 ≤ b ∧ b ≤ 57 := by
  induction k with
  | zero => intro m _ b hb; simp [padDigits] at hb
  | succ j ih =>
    intro m hm b hb
    rcases List.mem_cons.mp hb with h1 | h2
    · have hdig : m / 10 ^ j < 10 := by
        rw [Nat.div_lt_iff_lt_mul (Nat.pos_pow_of_pos j (by decide))]
        calc m < 10 ^ (j + 1) := hm
          _ = 10 * 10 ^ j := by rw [pow_succ]; ring
      have hle : m / 10 ^ j ≤ 9 := Nat.lt_succ_iff.mp hdig
      subst h1
      refine ⟨Nat.le_add_right 48 _, ?_⟩
      calc 48 + m / 10 ^ j ≤ 48 + 9 := Nat.add_le_add_left hle 48
        _ ≤ 57 := by norm_num
    · exact ih (m % 10 ^ j) (Nat.mod_lt m (Nat.pos_pow_of_pos j
        (by decide))) b h2

lemma digitsValFrom_zero_natDigits (n : Nat) :
    digitsValFrom 0 (natDigits n) = n := digitsVal_natDigits n

lemma tryFrom_ok_lt (scale : Nat) (bytes : List Nat) (d : DecimalU64)
    (h : tryFrom scale bytes = Except.ok d) : d.unscaled < U64MOD := by
  unfold tryFrom at h
  rcases hp : parseRun bytes (0, 0, 0) bytes with e | ⟨u, f, sc⟩ <;>
    simp only [hp] at h
  · cases h
  · by_cases hsc : sc ≤ scale
    · rw [if_pos hsc] at h
      rcases hg : SCALE_FACTORS.get? (scale - sc) with _ | factor <;>
        simp only [hg] at h
      · cases h
      · by_cases hm : u * factor < U64MOD
        · rw [if_pos hm] at h
          cases h
          exact hm
        · rw [if_neg hm] at h
          cases h
    · rw [if_neg hsc] at h
      cases h

lemma tryFrom_eq_of_run (scale : Nat) (hs : scale ≤ 8) (bytes : List Nat)
    (u f sc : Nat)
    (hrun : parseRun bytes (0, 0, 0) bytes = Except.ok (u, f, sc))
    (hsc : sc ≤ scale) (hmul : u * 10 ^ (scale - sc) < U64MOD) :
    tryFrom scale bytes = Except.ok ⟨u * 10 ^ (scale - sc)⟩ := by
  unfold tryFrom
  simp only [hrun]
  rw [if_pos hsc]
  simp only [SCALE_FACTORS_get (scale - sc) (by omega)]
  rw [if_pos hmul]

lemma tryFrom_fmtBytes (scale : Nat) (hs : scale ≤ 8) (v : Nat)
    (hv : v < U64MOD) : tryFrom scale (fmtBytes scale ⟨v⟩) = Except.ok ⟨v⟩ :=
  by
  have hpow : 0 < 10 ^ scale := Nat.pos_pow_of_pos scale (by decide)
  by_cases hp : 0 < scale
  · have hfmt : fmtBytes scale ⟨v⟩ = natDigits (v / 10 ^ scale) ++
        46 :: padDigits scale (v % 10 ^ scale) := by
      simp [fmtBytes, SCALE_FACTOR, if_pos hp]
    rw [hfmt]
    have hiplt : v / 10 ^ scale < U64MOD :=
      lt_of_le_of_lt (Nat.div_le_self v _) hv
    have hfplt : v % 10 ^ scale < 10 ^ scale := Nat.mod_lt v hpow
    have hval : digitsValFrom (v / 10 ^ scale)
        (padDigits scale (v % 10 ^ scale)) = v := by
      rw [digitsValFrom_padDigits scale _ _ hfplt, mul_comm,
        Nat.div_add_mod v (10 ^ scale)]
    have hrun1 : ∀ input, parseRun input (0, 0, 0)
        (natDigits (v / 10 ^ scale)) = Except.ok (v / 10 ^ scale, 0, 0) := by
      intro input
      rw [parseRun_digits input _ 0 0 0 (natDigits_mem _)
        (by rw [digitsValFrom_zero_natDigits]; exact hiplt) (by omega)]
      simp [digitsValFrom_zero_natDigits]
    have hrun2 : ∀ input, parseRun input (v / 10 ^ scale, 1, 0)
        (padDigits scale (v % 10 ^ scale)) =
          Except.ok (v, 1, scale) := by
      intro input
      rw [parseRun_digits input _ _ 1 0
        (padDigits_mem scale _ hfplt) (by rw [hval]; exact hv)
        (by rw [padDigits_length]; omega)]
      rw [hval]
      simp [padDigits_length]
    have hstep : ∀ (input : List Nat),
        parseStep input (v / 10 ^ scale, 0, 0) 46 =
          Except.ok (v / 10 ^ scale, 1, 0) := by
      intro input
      simp [parseStep]
    have hrunB : ∀ input, parseRun input (0, 0, 0)
        (natDigits (v / 10 ^ scale) ++
          46 :: padDigits scale (v % 10 ^ scale)) =
        Except.ok (v, 1, scale) := by
      intro input
      rw [parseRun_append, hrun1 input]
      show parseRun input (v / 10 ^ scale, 0, 0)
        (46 :: padDigits scale (v % 10 ^ scale)) = Except.ok (v, 1, scale)
      show (match parseStep input (v / 10 ^ scale, 0, 0) 46 with
        | Except.ok st' =>
          parseRun input st' (padDigits scale (v % 10 ^ scale))
        | Except.error e => Except.error e) = Except.ok (v, 1, scale)
      rw [hstep input]
      exact hrun2 input
    have := tryFrom_eq_of_run scale hs _ v 1 scale (hrunB _) (le_refl scale)
      (by rw [Nat.sub_self, pow_zero, mul_one]; exact hv)
    rwa [Nat.sub_self, pow_zero, mul_one] at this
  · have hz : scale = 0 := by omega
    subst hz
    have hfmt : fmtBytes 0 ⟨v⟩ = natDigits v := by
      simp [fmtBytes, SCALE_FACTOR]
    rw [hfmt]
    have hrun : ∀ input, parseRun input (0, 0, 0) (natDigits v) =
        Except.ok (v, 0, 0) := by
      intro input
      rw [parseRun_digits input _ 0 0 0 (natDigits_mem _)
        (by rw [digitsValFrom_zero_natDigits]; exact hv) (by omega)]
      simp [digitsValFrom_zero_natDigits]
    have := tryFrom_eq_of_run 0 (by omega) _ v 0 0 (hrun _) (le_refl 0)
      (by rw [Nat.sub_self, pow_zero, mul_one]; exact hv)
    rwa [Nat.sub_self, pow_zero, mul_one] at this

lemma natDigits_length_pos (n : Nat) : 1 ≤ (natDigits n).length := by
  rw [natDigits]
  by_cases h : n < 10
  · rw [dif_pos h]
    simp
  · rw [dif_neg h]
    simp

lemma writeIntDigits_zero (idx : Nat) (buf : List Nat) :
    writeIntDigits 0 idx buf = some buf := by
  rw [writeIntDigits, dif_pos rfl]

lemma countDigits_zero : countDigits 0 = 0 := by
  rw [countDigits, dif_pos rfl]

lemma natDigits_length_countDigits (n : Nat) :
    n ≠ 0 → (natDigits n).length = countDigits n := by
  induction n using Nat.strong_induction_on with
  | _ n ih =>
    intro hn
    by_cases h : n < 10
    · rw [natDigits, dif_pos h, countDigits, dif_neg hn,
        Nat.div_eq_of_lt h, countDigits_zero]
      simp
    · have hlt : n / 10 < n := Nat.div_lt_self (by omega) (by decide)
      have hne : n / 10 ≠ 0 := by
        intro hc
        have := Nat.div_add_mod n 10
        have hmod := Nat.mod_lt n (show 0 < 10 by decide)
        omega
      rw [natDigits, dif_neg h, countDigits, dif_neg hn]
      simp only [List.length_append, List.length_cons, List.length_nil]
      rw [ih (n / 10) hlt hne]

lemma countDigits_le (k : Nat) : ∀ n, n < 10 ^ k → countDigits n ≤ k := by
  induction k with
  | zero =>
    intro n hn
    have : n = 0 := by simpa using hn
    subst this
    rw [countDigits_zero]
  | succ j ih =>
    intro n hn
    by_cases h : n = 0
    · subst h
      rw [countDigits_zero]
      omega
    · rw [countDigits, dif_neg h]
      have hdiv : n / 10 < 10 ^ j := by
        rw [Nat.div_lt_iff_lt_mul (show 0 < 10 by decide)]
        calc n < 10 ^ (j + 1) := hn
          _ = 10 ^ j * 10 := pow_succ 10 j
      exact Nat.succ_le_succ (ih (n / 10) hdiv)

lemma natDigits_length_le20 (n : Nat) (h : n < U64MOD) :
    (natDigits n).length ≤ 20 := by
  by_cases hz : n = 0
  · subst hz
    rw [natDigits, dif_pos (by decide)]
    simp
  · rw [natDigits_length_countDigits n hz]
    exact countDigits_le 20 n (by
      calc n < U64MOD := h
        _ < 10 ^ 20 := by norm_num [U64MOD])

lemma append_drop_add (A D : List Nat) (j : Nat) :
    (A ++ D).drop (A.length + j) = D.drop j := by
  rw [← List.drop_drop j A.length (A ++ D), List.drop_left]

lemma writeIntDigits_spec (n : Nat) :
    ∀ (idx : Nat) (buf : List Nat), n ≠ 0 → (natDigits n).length ≤ idx →
      idx ≤ buf.length →
      writeIntDigits n idx buf =
        some (buf.take (idx - (natDigits n).length) ++ natDigits n ++
          buf.drop idx) := by
  induction n using Nat.strong_induction_on with
  | _ n ih =>
    intro idx buf hn hlen hidx
    have hpos : 1 ≤ (natDigits n).length := natDigits_length_pos n
    have hidx1 : idx - 1 < buf.length := by omega
    have hset : setByte buf (idx - 1) (48 + n % 10) =
        some (buf.set (idx - 1) (48 + n % 10)) := by
      rw [setByte, if_pos hidx1]
    have hidxm : idx - 1 + 1 = idx := by omega
    have hbufset : buf.set (idx - 1) (48 + n % 10) =
        buf.take (idx - 1) ++ (48 + n % 10) :: buf.drop idx := by
      rw [List.set_eq_take_cons_drop _ hidx1, hidxm]
    rw [writeIntDigits, dif_neg hn]
    simp only [hset]
    by_cases h : n < 10
    · have hd10 : n / 10 = 0 := Nat.div_eq_of_lt h
      rw [hd10, writeIntDigits_zero, hbufset]
      have hnd : natDigits n = [48 + n] := by rw [natDigits, dif_pos h]
      have hmod : n % 10 = n := Nat.mod_eq_of_lt h
      rw [hnd, hmod]
      simp
    · have hlt : n / 10 < n := Nat.div_lt_self (by omega) (by decide)
      have hne : n / 10 ≠ 0 := by
        have := Nat.div_add_mod n 10
        have hmod := Nat.mod_lt n (show 0 < 10 by decide)
        intro hc
        omega
      have hnd : natDigits n = natDigits (n / 10) ++ [48 + n % 10] := by
        rw [natDigits, dif_neg h]
      have hndlen : (natDigits n).length = (natDigits (n / 10)).length + 1 :=
        by rw [hnd]; simp
      have hih := ih (n / 10) hlt (idx - 1)
        (buf.set (idx - 1) (48 + n % 10)) hne (by omega)
        (by rw [List.length_set]; omega)
      rw [hih, hbufset]
      have htakelen : (buf.take (idx - 1)).length = idx - 1 := by
        rw [List.length_take]
        omega
      have htake : (buf.take (idx - 1) ++ (48 + n % 10) :: buf.drop idx).take
          (idx - 1 - (natDigits (n / 10)).length) =
          buf.take (idx - 1 - (natDigits (n / 10)).length) := by
        rw [List.take_append_of_le_length (by omega), List.take_take,
          min_eq_left (by omega)]
      have hdrop : (buf.take (idx - 1) ++ (48 + n % 10) :: buf.drop idx).drop
          (idx - 1) = (48 + n % 10) :: buf.drop idx := by
        rw [List.drop_left' htakelen]
      rw [htake, hdrop]
      have hfinal : buf.take (idx - 1 - (natDigits (n / 10)).length) ++
          natDigits (n / 10) ++ (48 + n % 10) :: buf.drop idx =
          buf.take (idx - (natDigits n).length) ++ natDigits n ++
            buf.drop idx := by
        have hcut : idx - 1 - (natDigits (n / 10)).length =
            idx - (natDigits n).length := by omega
        rw [hcut, hnd]
        simp
      rw [hfinal]

lemma writeFracDigits_spec :
    ∀ (k divisor frac pos : Nat) (buf : List Nat),
      (k ≠ 0 → divisor = 10 ^ (k - 1)) → pos + k ≤ buf.length →
      frac < 10 ^ k →
      writeFracDigits k divisor frac pos buf =
        some (buf.take pos ++ padDigits k frac ++ buf.drop (pos + k),
          pos + k) := by
  intro k
  induction k with
  | zero =>
    intro divisor frac pos buf _ _ _
    show some (buf, pos) = _
    rw [show padDigits 0 frac = [] from rfl]
    simp
  | succ j ih =>
    intro divisor frac pos buf hdivisor hpos hfrac
    have hdiv : divisor = 10 ^ j := by
      have := hdivisor (Nat.succ_ne_zero j)
      simpa using this
    subst hdiv
    have hdigit : frac / 10 ^ j < 10 := by
      rw [Nat.div_lt_iff_lt_mul (Nat.pos_pow_of_pos j (by decide))]
      calc frac < 10 ^ (j + 1) := hfrac
        _ = 10 * 10 ^ j := by rw [pow_succ]; ring
    have hposlt : pos < buf.length := by omega
    have hbyte : (48 + frac / 10 ^ j % 256) % 256 = 48 + frac / 10 ^ j := by
      have hin : frac / 10 ^ j % 256 = frac / 10 ^ j :=
        Nat.mod_eq_of_lt (by omega)
      rw [hin, Nat.mod_eq_of_lt (by omega)]
    have hset : setByte buf pos ((48 + frac / 10 ^ j % 256) % 256) =
        some (buf.set pos (48 + frac / 10 ^ j)) := by
      rw [setByte, if_pos hposlt, hbyte]
    have hbufset : buf.set pos (48 + frac / 10 ^ j) =
        (buf.take pos ++ [48 + frac / 10 ^ j]) ++ buf.drop (pos + 1) := by
      rw [List.set_eq_take_cons_drop _ hposlt]
      simp
    have htakelen : (buf.take pos ++ [48 + frac / 10 ^ j]).length = pos + 1 :=
      by
      simp only [List.length_append, List.length_take, List.length_cons,
        List.length_nil]
      omega
    show (match setByte buf pos ((48 + frac / 10 ^ j % 256) % 256) with
      | some buf' =>
        writeFracDigits j (10 ^ j / 10) (frac % 10 ^ j) (pos + 1) buf'
      | none => none) = _
    rw [hset]
    show writeFracDigits j (10 ^ j / 10) (frac % 10 ^ j) (pos + 1)
        (buf.set pos (48 + frac / 10 ^ j)) = _
    have hdiv10 : j ≠ 0 → 10 ^ j / 10 = 10 ^ (j - 1) := by
      intro hj
      rw [show (10 : Nat) ^ j = 10 ^ (j - 1) * 10 by
        rw [← pow_succ]
        congr 1
        omega]
      exact Nat.mul_div_cancel _ (by decide)
    have hlen : (pos + 1) + j ≤ (buf.set pos (48 + frac / 10 ^ j)).length :=
      by
      rw [List.length_set]
      omega
    rw [ih (10 ^ j / 10) (frac % 10 ^ j) (pos + 1) _ hdiv10 hlen
      (Nat.mod_lt frac (Nat.pos_pow_of_pos j (by decide)))]
    rw [hbufset]
    have htake : ((buf.take pos ++ [48 + frac / 10 ^ j]) ++
        buf.drop (pos + 1)).take (pos + 1) =
        buf.take pos ++ [48 + frac / 10 ^ j] := List.take_left' htakelen
    have hdrop : ((buf.take pos ++ [48 + frac / 10 ^ j]) ++
        buf.drop (pos + 1)).drop (pos + 1 + j) =
        buf.drop (pos + (j + 1)) := by
      rw [show pos + 1 + j = (buf.take pos ++
        [48 + frac / 10 ^ j]).length + j by rw [htakelen],
        append_drop_add, List.drop_drop]
      congr 1
      omega
    rw [htake, hdrop]
    rw [show padDigits (j + 1) frac =
      (48 + frac / 10 ^ j) :: padDigits j (frac % 10 ^ j) from rfl]
    have harr : pos + 1 + j = pos + (j + 1) := by omega
    rw [harr]
    simp

lemma writeTo_spec (scale : Nat) (v : Nat) (buf : List Nat)
    (hbuf : (fmtBytes scale ⟨v⟩).length ≤ buf.length) :
    writeTo scale ⟨v⟩ buf =
      some (fmtBytes scale ⟨v⟩ ++ buf.drop (fmtBytes scale ⟨v⟩).length,
        (fmtBytes scale ⟨v⟩).length) := by
  have hpow : 0 < 10 ^ scale := Nat.pos_pow_of_pos scale (by decide)
  have hndpos : 1 ≤ (natDigits (v / 10 ^ scale)).length :=
    natDigits_length_pos _
  have hfmtlen_ge : (natDigits (v / 10 ^ scale)).length ≤
      (fmtBytes scale ⟨v⟩).length := by
    simp only [fmtBytes, SCALE_FACTOR, List.length_append]
    omega
  have hndbuf : (natDigits (v / 10 ^ scale)).length ≤ buf.length :=
    le_trans hfmtlen_ge hbuf
  have hstep1 : (if v / 10 ^ scale = 0 then
        match setByte buf 0 48 with
        | some buf' => some (buf', 1)
        | none => none
      else
        match writeIntDigits (v / 10 ^ scale)
            (countDigits (v / 10 ^ scale)) buf with
        | some buf' => some (buf', countDigits (v / 10 ^ scale))
        | none => none) =
      some (natDigits (v / 10 ^ scale) ++
          buf.drop (natDigits (v / 10 ^ scale)).length,
        (natDigits (v / 10 ^ scale)).length) := by
    by_cases hip : v / 10 ^ scale = 0
    · rw [if_pos hip, hip]
      have h0 : 0 < buf.length := by omega
      have hset : setByte buf 0 48 = some (buf.set 0 48) := by
        rw [setByte, if_pos h0]
      simp only [hset]
      have hnd0 : natDigits 0 = [48] := by
        rw [natDigits, dif_pos (by decide)]
      have hsetexp : buf.set 0 48 = buf.take 0 ++ 48 :: buf.drop 1 :=
        List.set_eq_take_cons_drop _ h0
      rw [hnd0, hsetexp]
      simp
    · rw [if_neg hip]
      have hcd : countDigits (v / 10 ^ scale) =
          (natDigits (v / 10 ^ scale)).length :=
        (natDigits_length_countDigits _ hip).symm
      rw [hcd, writeIntDigits_spec _ _ _ hip (le_refl _) hndbuf,
        Nat.sub_self]
      simp
  show (match (if v / 10 ^ scale = 0 then
        match setByte buf 0 48 with
        | some buf' => some (buf', 1)
        | none => none
      else
        match writeIntDigits (v / 10 ^ scale)
            (countDigits (v / 10 ^ scale)) buf with
        | some buf' => some (buf', countDigits (v / 10 ^ scale))
        | none => none : Option (List Nat × Nat)) with
    | none => none
    | some (buf1, pos1) =>
      if 0 < scale then
        match setByte buf1 pos1 46 with
        | some buf2 =>
          writeFracDigits scale (10 ^ (scale - 1)) (v % 10 ^ scale)
            (pos1 + 1) buf2
        | none => none
      else some (buf1, pos1)) = _
  rw [hstep1]
  show (if 0 < scale then
      match setByte (natDigits (v / 10 ^ scale) ++
          buf.drop (natDigits (v / 10 ^ scale)).length)
          (natDigits (v / 10 ^ scale)).length 46 with
      | some buf2 =>
        writeFracDigits scale (10 ^ (scale - 1)) (v % 10 ^ scale)
          ((natDigits (v / 10 ^ scale)).length + 1) buf2
      | none => none
    else some (natDigits (v / 10 ^ scale) ++
        buf.drop (natDigits (v / 10 ^ scale)).length,
      (natDigits (v / 10 ^ scale)).length)) = _
  by_cases hp : 0 < scale
  · have hfmtP : fmtBytes scale ⟨v⟩ = natDigits (v / 10 ^ scale) ++
        46 :: padDigits scale (v % 10 ^ scale) := by
      simp only [fmtBytes, SCALE_FACTOR, if_pos hp]
    have hfmtlen : (fmtBytes scale ⟨v⟩).length =
        (natDigits (v / 10 ^ scale)).length + (scale + 1) := by
      rw [hfmtP]
      simp [padDigits_length]
    have hndlt : (natDigits (v / 10 ^ scale)).length < buf.length := by
      omega
    have hbuf1len : (natDigits (v / 10 ^ scale) ++
        buf.drop (natDigits (v / 10 ^ scale)).length).length = buf.length :=
      by
      simp only [List.length_append, List.length_drop]
      omega
    rw [if_pos hp]
    have hset46 : setByte (natDigits (v / 10 ^ scale) ++
        buf.drop (natDigits (v / 10 ^ scale)).length)
        (natDigits (v / 10 ^ scale)).length 46 =
        some ((natDigits (v / 10 ^ scale) ++
          buf.drop (natDigits (v / 10 ^ scale)).length).set
          (natDigits (v / 10 ^ scale)).length 46) := by
      rw [setByte, if_pos (by rw [hbuf1len]; omega)]
    simp only [hset46]
    have hbuf2 : (natDigits (v / 10 ^ scale) ++
        buf.drop (natDigits (v / 10 ^ scale)).length).set
        (natDigits (v / 10 ^ scale)).length 46 =
        (natDigits (v / 10 ^ scale) ++ [46]) ++
          buf.drop ((natDigits (v / 10 ^ scale)).length + 1) := by
      rw [List.set_eq_take_cons_drop _ (by rw [hbuf1len]; omega),
        List.take_left, append_drop_add _ _ 1, List.drop_drop]
      simp
    rw [hbuf2]
    have hlen46 : (natDigits (v / 10 ^ scale) ++ [46]).length =
        (natDigits (v / 10 ^ scale)).length + 1 := by simp
    have hfracbound : ((natDigits (v / 10 ^ scale)).length + 1) + scale ≤
        ((natDigits (v / 10 ^ scale) ++ [46]) ++
          buf.drop ((natDigits (v / 10 ^ scale)).length + 1)).length := by
      simp only [List.length_append, List.length_drop, List.length_cons,
        List.length_nil]
      omega
    rw [writeFracDigits_spec scale (10 ^ (scale - 1)) (v % 10 ^ scale)
      ((natDigits (v / 10 ^ scale)).length + 1) _ (fun _ => rfl) hfracbound
      (Nat.mod_lt v hpow)]
    have htake2 : ((natDigits (v / 10 ^ scale) ++ [46]) ++
        buf.drop ((natDigits (v / 10 ^ scale)).length + 1)).take
        ((natDigits (v / 10 ^ scale)).length + 1) =
        natDigits (v / 10 ^ scale) ++ [46] := List.take_left' hlen46
    have hdrop2 : ((natDigits (v / 10 ^ scale) ++ [46]) ++
        buf.drop ((natDigits (v / 10 ^ scale)).length + 1)).drop
        ((natDigits (v / 10 ^ scale)).length + 1 + scale) =
        buf.drop ((natDigits (v / 10 ^ scale)).length + (scale + 1)) := by
      rw [show (natDigits (v / 10 ^ scale)).length + 1 + scale =
        (natDigits (v / 10 ^ scale) ++ [46]).length + scale by
          rw [hlen46],
        append_drop_add, List.drop_drop]
      congr 1
      omega
    rw [htake2, hdrop2, hfmtP]
    have hlenfmt : (natDigits (v / 10 ^ scale) ++
        46 :: padDigits scale (v % 10 ^ scale)).length =
        (natDigits (v / 10 ^ scale)).length + (scale + 1) := by
      simp [padDigits_length]
    rw [hlenfmt]
    have hposeq : (natDigits (v / 10 ^ scale)).length + 1 + scale =
        (natDigits (v / 10 ^ scale)).length + (scale + 1) := by omega
    rw [hposeq]
    simp
  · rw [if_neg hp]
    have hfmt0 : fmtBytes scale ⟨v⟩ = natDigits (v / 10 ^ scale) := by
      simp only [fmtBytes, SCALE_FACTOR, if_neg hp]
      simp
    rw [hfmt0]

lemma digitsVal_padDigits (k m : Nat) (hm : m < 10 ^ k) :
    digitsVal (padDigits k m) = m := by
  rw [digitsVal, digitsValFrom_padDigits k m 0 hm]
  simp

lemma fmtBytes_length_le (scale : Nat) (hs : scale ≤ 8) (v : Nat)
    (hv : v < U64MOD) : (fmtBytes scale ⟨v⟩).length ≤ 29 := by
  have hnd : (natDigits (v / 10 ^ scale)).length ≤ 20 :=
    natDigits_length_le20 _ (lt_of_le_of_lt (Nat.div_le_self v _) hv)
  by_cases hp : 0 < scale
  · rw [show fmtBytes scale ⟨v⟩ = natDigits (v / 10 ^ scale) ++
      46 :: padDigits scale (v % 10 ^ scale) by
        simp only [fmtBytes, SCALE_FACTOR, if_pos hp]]
    simp only [List.length_append, List.length_cons, padDigits_length]
    omega
  · rw [show fmtBytes scale ⟨v⟩ = natDigits (v / 10 ^ scale) by
      simp only [fmtBytes, SCALE_FACTOR, if_neg hp]
      simp]
    omega

lemma display_fmtBytes (scale : Nat) (hs : scale ≤ 8) (v : Nat)
    (hv : v < U64MOD) : display scale ⟨v⟩ = some (fmtBytes scale ⟨v⟩) := by
  have hlen : (fmtBytes scale ⟨v⟩).length ≤ (List.replicate 64 0).length := by
    rw [List.length_replicate]
    have := fmtBytes_length_le scale hs v hv
    omega
  show (match writeTo scale ⟨v⟩ (List.replicate 64 0) with
    | some (buf, len) => some (buf.take len)
    | none => none) = some (fmtBytes scale ⟨v⟩)
  rw [writeTo_spec scale v (List.replicate 64 0) hlen]
  show some ((fmtBytes scale ⟨v⟩ ++
      (List.replicate 64 (0 : Nat)).drop (fmtBytes scale ⟨v⟩).length).take
      (fmtBytes scale ⟨v⟩).length) = _
  rw [List.take_left]

/-- Claim C3: whenever parsing a byte string succeeds with value d (at a
supported scale), formatting d succeeds and the formatted text — the integer
digits, a dot, and the fractional part zero-padded to exactly SCALE digits —
parses back to exactly the same value, so formatting reproduces the numeric
value of the input. -/
theorem claim_C3_parse_format_roundtrip (scale : Nat) (hs : scale ≤ 8)
    (bytes : List Nat) (d : DecimalU64)
    (hparse : tryFrom scale bytes = Except.ok d) :
    display scale d = some (fmtBytes scale d) ∧
      tryFrom scale (fmtBytes scale d) = Except.ok d := by
  obtain ⟨v⟩ := d
  have hlt : v < U64MOD := tryFrom_ok_lt scale bytes ⟨v⟩ hparse
  exact ⟨display_fmtBytes scale hs v hlt, tryFrom_fmtBytes scale hs v hlt⟩

theorem claim_C3_parse_format_roundtrip_witness :
    display 8 ⟨12345000000⟩ = some (fmtBytes 8 ⟨12345000000⟩) ∧
      tryFrom 8 (fmtBytes 8 ⟨12345000000⟩) = Except.ok ⟨12345000000⟩ ∧
      fmtBytes 8 ⟨12345000000⟩ =
        [49, 50, 51, 46, 52, 53, 48, 48, 48, 48, 48, 48] := by
  have h := claim_C3_parse_format_roundtrip 8 (by norm_num)
    [49, 50, 51, 46, 52, 53] ⟨12345000000⟩ rfl
  exact ⟨h.1, h.2, by simp [fmtBytes, natDigits, padDigits, SCALE_FACTOR]⟩

/-- Claim C4: formatting is total for every value at every supported scale
(the 64-byte Display buffer always suffices) and emits the decimal digits of
unscaled / SCALE_FACTOR (at least one digit, a single zero digit for a zero
integer part, and their numeric value is exactly the integer part), then,
exactly when SCALE is positive, a dot followed by exactly SCALE digits whose
value is unscaled % SCALE_FACTOR, left-padded with zeros; when SCALE is zero
no dot is emitted; and every emitted byte is ASCII. -/
theorem claim_C4_format_shape (scale : Nat) (hs : scale ≤ 8) (v : Nat)
    (hv : v < U64MOD) :
    display scale ⟨v⟩ = some (natDigits (v / SCALE_FACTOR scale) ++
        (if 0 < scale then
          46 :: padDigits scale (v % SCALE_FACTOR scale) else [])) ∧
      1 ≤ (natDigits (v / SCALE_FACTOR scale)).length ∧
      digitsVal (natDigits (v / SCALE_FACTOR scale)) =
        v / SCALE_FACTOR scale ∧
      (padDigits scale (v % SCALE_FACTOR scale)).length = scale ∧
      digitsVal (padDigits scale (v % SCALE_FACTOR scale)) =
        v % SCALE_FACTOR scale ∧
      ∀ b ∈ natDigits (v / SCALE_FACTOR scale) ++
        (if 0 < scale then
          46 :: padDigits scale (v % SCALE_FACTOR scale) else []), b < 128 :=
  by
  have hpow : 0 < 10 ^ scale := Nat.pos_pow_of_pos scale (by decide)
  refine ⟨display_fmtBytes scale hs v hv, natDigits_length_pos _,
    digitsVal_natDigits _, padDigits_length scale _,
    digitsVal_padDigits scale _ (Nat.mod_lt v hpow), ?_⟩
  intro b hb
  rcases List.mem_append.mp hb with h1 | h2
  · have := natDigits_mem _ b h1
    omega
  · by_cases hp : 0 < scale
    · rw [if_pos hp] at h2
      rcases List.mem_cons.mp h2 with h3 | h4
      · omega
      · have := padDigits_mem scale _ (Nat.mod_lt v hpow) b h4
        omega
    · rw [if_neg hp] at h2
      simp at h2

theorem claim_C4_format_shape_witness :
    display 8 ⟨9⟩ = some (natDigits (9 / SCALE_FACTOR 8) ++
        (if 0 < 8 then
          46 :: padDigits 8 (9 % SCALE_FACTOR 8) else [])) ∧
      1 ≤ (natDigits (9 / SCALE_FACTOR 8)).length ∧
      digitsVal (natDigits (9 / SCALE_FACTOR 8)) = 9 / SCALE_FACTOR 8 ∧
      (padDigits 8 (9 % SCALE_FACTOR 8)).length = 8 ∧
      digitsVal (padDigits 8 (9 % SCALE_FACTOR 8)) = 9 % SCALE_FACTOR 8 ∧
      ∀ b ∈ natDigits (9 / SCALE_FACTOR 8) ++
        (if 0 < 8 then
          46 :: padDigits 8 (9 % SCALE_FACTOR 8) else []), b < 128 :=
  claim_C4_format_shape 8 (by norm_num) 9 (by norm_num [U64MOD])

/-- Claim C9: for every supported scale, every value and every caller buffer
of at least 29 bytes, write_to performs only in-bounds writes (every buffer
store is modelled by setByte, which fails on an out-of-bounds index, so a
returned result proves all writes were in bounds), returns a byte count of
at most 29 and leaves the buffer length unchanged. -/
theorem claim_C9_write_to_bounds (scale : Nat) (hs : scale ≤ 8) (v : Nat)
    (hv : v < U64MOD) (buf : List Nat) (hbuf : 29 ≤ buf.length) :
    ∃ (buf' : List Nat) (pos : Nat),
      writeTo scale ⟨v⟩ buf = some (buf', pos) ∧ pos ≤ 29 ∧
        buf'.length = buf.length := by
  have hle : (fmtBytes scale ⟨v⟩).length ≤ buf.length := by
    have := fmtBytes_length_le scale hs v hv
    omega
  refine ⟨fmtBytes scale ⟨v⟩ ++ buf.drop (fmtBytes scale ⟨v⟩).length,
    (fmtBytes scale ⟨v⟩).length, writeTo_spec scale v buf hle,
    fmtBytes_length_le scale hs v hv, ?_⟩
  simp only [List.length_append, List.length_drop]
  omega

theorem claim_C9_write_to_bounds_witness :
    ∃ (buf' : List Nat) (pos : Nat),
      writeTo 8 ⟨12345000001⟩ (List.replicate 29 0) = some (buf', pos) ∧
        pos ≤ 29 ∧ buf'.length = (List.replicate 29 (0 : Nat)).length :=
  claim_C9_write_to_bounds 8 (by norm_num) 12345000001
    (by norm_num [U64MOD]) (List.replicate 29 0) (by simp)
